import Mathlib

/-!
Verification of the LAN rendezvous-and-relay subsystem of the
`dailyatti/imageresizer` repository (signaling server in the unnamed
server source, chunked-transfer coordinator in `app.js`).

The JavaScript source is shallowly embedded: `Map` objects become
association lists with JS `Map` semantics (`set` replaces in place,
insertion order preserved), `Set` objects become duplicate-free lists,
sparse arrays become lists of `Option String` (a hole is `none`, and
`join('')` renders a hole as the empty string), and the side effects of
each handler (DOM downloads, progress UI, outbound socket sends) become
explicit event lists.
-/

/-- JS truthiness of a possibly-absent string field (`undefined` and the
empty string are falsy). -/
def jsTruthy : Option String → Bool
  | none => false
  | some s => s ≠ ""

/-! ### JS `Map` as an association list -/

/-- JS `Map.get`: first (and only) binding of the key. -/
def mget {α : Type} : List (String × α) → String → Option α
  | [], _ => none
  | (k, v) :: rest, key => if k = key then some v else mget rest key

/-- JS `Map.set`: replace in place if the key is present, else append. -/
def mset {α : Type} : List (String × α) → String → α → List (String × α)
  | [], key, v => [(key, v)]
  | (k, w) :: rest, key, v =>
      if k = key then (key, v) :: rest else (k, w) :: mset rest key v

/-- JS `Map.delete`: remove the binding of the key, if any. -/
def mdel {α : Type} : List (String × α) → String → List (String × α)
  | [], _ => []
  | (k, v) :: rest, key =>
      if k = key then mdel rest key else (k, v) :: mdel rest key

/-! ### Chunked Transfer Coordinator (receiving side, `app.js`) -/

/-- One receiving-side transfer session, as allocated by
`handleTransferStart`: `chunks` is `new Array(totalChunks)` (all holes). -/
structure Transfer where
  fileName : String
  fileSize : Nat
  totalChunks : Nat
  chunks : List (Option String)
  receivedChunks : Nat
  deriving Repr, DecidableEq

/-- Fields of a `transfer_start` message. -/
structure StartData where
  transferId : String
  fileName : String
  fileSize : Nat
  totalChunks : Nat
  deriving Repr, DecidableEq

/-- Fields of a `file_chunk` message (`isLast` is the last-chunk flag). -/
structure ChunkData where
  transferId : String
  chunkIndex : Nat
  chunk : String
  isLast : Bool
  deriving Repr, DecidableEq

/-- Observable side effects of the receiving-side handlers. -/
inductive Event where
  | shown (transferId : String)
  | progress (transferId : String) (received total : Nat)
  | download (transferId fileName fileData : String)
  | hidden (transferId : String)
  | notified (fileName : String)
  deriving Repr, DecidableEq

/-- Receiving-side state: the `activeTransfers` map. -/
structure AppState where
  activeTransfers : List (String × Transfer)
  deriving Repr, DecidableEq

/-- JS sparse-array assignment `arr[i] = v`: in range it overwrites; past
the end it grows the array with holes. -/
def setGrow (l : List (Option String)) (i : Nat) (v : Option String) :
    List (Option String) :=
  if i < l.length then l.set i v
  else l ++ List.replicate (i - l.length) none ++ [v]

/-- JS `transfer.chunks.join('')`: holes render as the empty string. -/
def joinChunks (l : List (Option String)) : String :=
  String.join (l.map (fun o => o.getD ""))

/-- Embeds `completeFileTransfer(transferId)`: reconstruct by index-ordered join,
trigger the download, remove the session, hide progress, notify. -/
def completeFileTransfer (s : AppState) (transferId : String) :
    AppState × List Event :=
  match mget s.activeTransfers transferId with
  | none => (s, [])
  | some t =>
      (⟨mdel s.activeTransfers transferId⟩,
        [Event.download transferId t.fileName (joinChunks t.chunks),
         Event.hidden transferId,
         Event.notified t.fileName])

/-- Embeds `handleTransferStart(data)`: allocate the slot array and register the
session (overwriting any session with the same id). -/
def handleTransferStart (s : AppState) (d : StartData) : AppState × List Event :=
  (⟨mset s.activeTransfers d.transferId
      ⟨d.fileName, d.fileSize, d.totalChunks,
        List.replicate d.totalChunks none, 0⟩⟩,
    [Event.shown d.transferId])

/-- Embeds `handleFileChunk(data)`: store the chunk at its declared index,
increment the received count, and complete when the last-chunk flag is set
or the count reaches the declared total. -/
def handleFileChunk (s : AppState) (d : ChunkData) : AppState × List Event :=
  match mget s.activeTransfers d.transferId with
  | none => (s, [])
  | some t =>
      let t' : Transfer :=
        { t with chunks := setGrow t.chunks d.chunkIndex (some d.chunk),
                 receivedChunks := t.receivedChunks + 1 }
      let s' : AppState := ⟨mset s.activeTransfers d.transferId t'⟩
      let ev := Event.progress d.transferId t'.receivedChunks t'.totalChunks
      if d.isLast || t'.receivedChunks == t'.totalChunks then
        let (s'', ev') := completeFileTransfer s' d.transferId
        (s'', ev :: ev')
      else
        (s', [ev])

/-- An inbound message on the receiving side. -/
inductive Msg where
  | start (d : StartData)
  | chunk (d : ChunkData)
  deriving Repr, DecidableEq

/-- Process one message. -/
def stepMsg (s : AppState) : Msg → AppState × List Event
  | Msg.start d => handleTransferStart s d
  | Msg.chunk d => handleFileChunk s d

/-- Process a sequence of messages, accumulating events in order. -/
def run (s : AppState) : List Msg → AppState × List Event
  | [] => (s, [])
  | m :: ms =>
      let (s', es) := stepMsg s m
      let (s'', es') := run s' ms
      (s'', es ++ es')

/-- The download events of a run, in order. -/
def downloadsOf (evs : List Event) : List (String × String × String) :=
  evs.filterMap (fun e =>
    match e with
    | Event.download tid n d => some (tid, n, d)
    | _ => none)

/-- Number of completion (download) side effects attributed to one
transfer id. -/
def dcount (tid : String) (evs : List Event) : Nat :=
  (evs.filterMap (fun e =>
    match e with
    | Event.download t n d => if t = tid then some (n, d) else none
    | _ => none)).length

/-- Number of `transfer_start` messages for one transfer id. -/
def scount (tid : String) (ms : List Msg) : Nat :=
  (ms.filter (fun m =>
    match m with
    | Msg.start d => d.transferId = tid
    | _ => false)).length

/-- The slot array after a list of chunk messages has been stored. -/
def applyChunks (cs : List (Option String)) (ms : List ChunkData) :
    List (Option String) :=
  ms.foldl (fun cs m => setGrow cs m.chunkIndex (some m.chunk)) cs

/-- 1 when a session with this transfer id is active, else 0. -/
def present (tid : String) (s : AppState) : Nat :=
  if (mget s.activeTransfers tid).isSome then 1 else 0

/-! ### Signaling server (unnamed server source): registry, rooms, router -/

/-- Registry entry: `{ id, ws, ip, userAgent, connectedAt, room }`; the JS
`ws` handle is reduced to its `readyState === OPEN` test. -/
structure ClientInfo where
  room : Option String
  wsOpen : Bool
  ip : String
  userAgent : String
  connectedAt : Nat
  deriving Repr, DecidableEq

/-- Room entry: `{ id, name?, clients:Set, createdAt, creator? }`
(on-demand rooms created by `handleJoinRoom` have no name or creator). -/
structure RoomInfo where
  name : Option String
  clients : List String
  createdAt : Nat
  creator : Option String
  deriving Repr, DecidableEq

/-- The server's two process-wide maps. -/
structure ServerState where
  clients : List (String × ClientInfo)
  rooms : List (String × RoomInfo)
  deriving Repr, DecidableEq

/-- JS `Set.add`: append if absent. -/
def sAdd (s : List String) (x : String) : List String :=
  if x ∈ s then s else s ++ [x]

/-- JS `Set.delete`. -/
def sDel (s : List String) (x : String) : List String :=
  s.filter (fun y => y ≠ x)

inductive SigKind where
  | offer
  | answer
  | ice
  deriving Repr, DecidableEq

inductive FtKind where
  | start
  | chunk
  | complete
  deriving Repr, DecidableEq

/-- An inbound signaling message: its kind, an optional client-supplied
`from` property, and the rest of the payload kept uninterpreted. -/
structure SigData where
  kind : SigKind
  fromField : Option String
  payload : String
  deriving Repr, DecidableEq

/-- An inbound file-transfer relay message. -/
structure FtData where
  kind : FtKind
  transferId : String
  targetClient : Option String
  body : String
  deriving Repr, DecidableEq

/-- Messages the server sends to clients. -/
inductive ServerMsg where
  | welcome (clientId : String)
  | roomCreated (roomId : String) (name : Option String)
  | roomJoined (roomId : String) (clients : List String)
  | clientJoined (clientId : String) (roomClients : List String)
  | clientLeft (clientId : String) (roomClients : List String)
  | sigRelay (kind : SigKind) (fromVal : String) (payload : String)
  | ftRelay (kind : FtKind) (transferId : String) (targetClient : Option String)
      (body : String) (fromVal : String)
  | deviceList (devices : List String)
  | errorMsg (message : String)
  deriving Repr, DecidableEq

/-- Embeds `broadcastToRoom(roomId, message, excludeClient)`: send to each member
of the room, in insertion order, skipping the excluded client and any
member without an open registered socket. -/
def broadcastToRoom (s : ServerState) (roomId : String) (msg : ServerMsg)
    (excludeClient : Option String) : List (String × ServerMsg) :=
  match mget s.rooms roomId with
  | none => []
  | some room =>
      room.clients.filterMap (fun cid =>
        if some cid = excludeClient then none
        else
          match mget s.clients cid with
          | some c => if c.wsOpen then some (cid, msg) else none
          | none => none)

/-- Embeds `leaveRoom(clientId, roomId)`: remove the member; delete the room when
it becomes empty, otherwise broadcast a client-left event. -/
def leaveRoom (s : ServerState) (clientId roomId : String) :
    ServerState × List (String × ServerMsg) :=
  match mget s.rooms roomId with
  | none => (s, [])
  | some room =>
      let room' : RoomInfo := { room with clients := sDel room.clients clientId }
      if room'.clients.isEmpty then
        ({ s with rooms := mdel s.rooms roomId }, [])
      else
        let s' : ServerState := { s with rooms := mset s.rooms roomId room' }
        (s', broadcastToRoom s' roomId
          (ServerMsg.clientLeft clientId room'.clients) none)

/-- Embeds `handleJoinRoom(clientId, roomId)`: leave the current room if any,
create the target room on demand, add the member, set the client's room,
notify the others, reply to the joiner without itself. -/
def handleJoinRoom (s : ServerState) (clientId roomId : String) (now : Nat) :
    ServerState × List (String × ServerMsg) :=
  match mget s.clients clientId with
  | none => (s, [])
  | some client =>
      let p1 : ServerState × List (String × ServerMsg) :=
        if jsTruthy client.room then leaveRoom s clientId (client.room.getD "")
        else (s, [])
      let s1 := p1.1
      let s2 : ServerState :=
        if (mget s1.rooms roomId).isSome then s1
        else { s1 with rooms := mset s1.rooms roomId ⟨none, [], now, none⟩ }
      let room : RoomInfo := (mget s2.rooms roomId).getD ⟨none, [], now, none⟩
      let room' : RoomInfo := { room with clients := sAdd room.clients clientId }
      let s3 : ServerState := { s2 with rooms := mset s2.rooms roomId room' }
      let s4 : ServerState :=
        { s3 with
            clients := mset s3.clients clientId { client with room := some roomId } }
      (s4, p1.2 ++
        broadcastToRoom s4 roomId
          (ServerMsg.clientJoined clientId room'.clients) (some clientId) ++
        [(clientId, ServerMsg.roomJoined roomId
          (room'.clients.filter (fun i => i ≠ clientId)))])

/-- Embeds `handleCreateRoom(clientId, roomName)`: store a fresh room whose only
member is the creator and point the creator's room at it; the creator's
previous room, if any, is not left. -/
def handleCreateRoom (s : ServerState) (clientId : String)
    (roomName : Option String) (newRoomId : String) (now : Nat) :
    ServerState × List (String × ServerMsg) :=
  let s1 : ServerState :=
    { s with
        rooms := mset s.rooms newRoomId
                   ⟨some (if jsTruthy roomName then roomName.getD ""
                          else "Room " ++ newRoomId),
                     [clientId], now, some clientId⟩ }
  match mget s.clients clientId with
  | some client =>
      ({ s1 with
           clients := mset s1.clients clientId { client with room := some newRoomId } },
        [(clientId, ServerMsg.roomCreated newRoomId roomName)])
  | none => (s1, [])

/-- Embeds `handleWebRTCSignaling(clientId, data)`: relay
`{ type: data.type, from: clientId, ...data }` to the other members of the
sender's room — the trailing spread lets a payload-supplied `from`
override the sender's id. -/
def handleWebRTCSignaling (s : ServerState) (clientId : String) (d : SigData) :
    ServerState × List (String × ServerMsg) :=
  match mget s.clients clientId with
  | none => (s, [])
  | some client =>
      if jsTruthy client.room then
        (s, broadcastToRoom s (client.room.getD "")
          (ServerMsg.sigRelay d.kind (d.fromField.getD clientId) d.payload)
          (some clientId))
      else (s, [])

/-- Embeds `handleFileTransfer(clientId, data)`: relay `{ ...data, from: clientId }`
to a truthy named target when it is registered with an open socket,
otherwise broadcast to the sender's room; the sender must be in a room. -/
def handleFileTransfer (s : ServerState) (clientId : String) (d : FtData) :
    ServerState × List (String × ServerMsg) :=
  match mget s.clients clientId with
  | none => (s, [])
  | some client =>
      if jsTruthy client.room then
        if jsTruthy d.targetClient then
          match mget s.clients (d.targetClient.getD "") with
          | some target =>
              if target.wsOpen then
                (s, [(d.targetClient.getD "",
                  ServerMsg.ftRelay d.kind d.transferId d.targetClient d.body
                    clientId)])
              else (s, [])
          | none => (s, [])
        else
          (s, broadcastToRoom s (client.room.getD "")
            (ServerMsg.ftRelay d.kind d.transferId d.targetClient d.body
              clientId)
            (some clientId))
      else (s, [])

/-- Embeds `handleDeviceDiscovery(clientId)`: reply with the other client ids. -/
def handleDeviceDiscovery (s : ServerState) (clientId : String) :
    ServerState × List (String × ServerMsg) :=
  match mget s.clients clientId with
  | none => (s, [])
  | some _ =>
      (s, [(clientId, ServerMsg.deviceList
        ((s.clients.map Prod.fst).filter (fun i => i ≠ clientId)))])

/-- Embeds `handleClientDisconnect(clientId)`: leave the client's current room,
then drop the registry entry. -/
def handleClientDisconnect (s : ServerState) (clientId : String) :
    ServerState × List (String × ServerMsg) :=
  let p1 : ServerState × List (String × ServerMsg) :=
    match mget s.clients clientId with
    | some client =>
        if jsTruthy client.room then leaveRoom s clientId (client.room.getD "")
        else (s, [])
    | none => (s, [])
  ({ p1.1 with clients := mdel p1.1.clients clientId }, p1.2)

/-- Embeds `onWsConnection`: register the fresh id and send the welcome reply. -/
def onWsConnection (s : ServerState) (clientId ip userAgent : String)
    (now : Nat) : ServerState × List (String × ServerMsg) :=
  ({ s with clients := mset s.clients clientId ⟨none, true, ip, userAgent, now⟩ },
    [(clientId, ServerMsg.welcome clientId)])

/-- A parsed inbound client message, one variant per dispatched kind; the
default case of the switch is `unknown`. -/
inductive ClientMsg where
  | joinRoom (roomId : String)
  | createRoom (roomName : Option String)
  | signaling (d : SigData)
  | fileTransfer (d : FtData)
  | deviceDiscovery
  | unknown (typ : String)
  deriving Repr, DecidableEq

/-- Embeds `handleMessage(clientId, data)`: drop messages from unregistered
clients, else dispatch on the kind; unknown kinds are logged and dropped.
`genId` stands for the id produced by `generateRoomId`. -/
def handleMessage (s : ServerState) (clientId : String) (m : ClientMsg)
    (genId : String) (now : Nat) : ServerState × List (String × ServerMsg) :=
  match mget s.clients clientId with
  | none => (s, [])
  | some _ =>
      match m with
      | ClientMsg.joinRoom roomId => handleJoinRoom s clientId roomId now
      | ClientMsg.createRoom roomName =>
          handleCreateRoom s clientId roomName genId now
      | ClientMsg.signaling d => handleWebRTCSignaling s clientId d
      | ClientMsg.fileTransfer d => handleFileTransfer s clientId d
      | ClientMsg.deviceDiscovery => handleDeviceDiscovery s clientId
      | ClientMsg.unknown _ => (s, [])

/-- The `ws.on('message')` callback: a payload that fails to parse is
answered with a single error reply and nothing else; a parsed payload is
dispatched. -/
def onRawMessage (s : ServerState) (clientId : String)
    (parsed : Option ClientMsg) (genId : String) (now : Nat) :
    ServerState × List (String × ServerMsg) :=
  match parsed with
  | none => (s, [(clientId, ServerMsg.errorMsg "Invalid JSON message")])
  | some m => handleMessage s clientId m genId now

/-- External operations on the server: a connection (with its generated
client id), an inbound raw message, a disconnect. -/
inductive Op where
  | connect (clientId ip userAgent : String) (now : Nat)
  | message (clientId : String) (parsed : Option ClientMsg) (genId : String)
      (now : Nat)
  | disconnect (clientId : String)
  deriving Repr, DecidableEq

def stepOp (s : ServerState) : Op → ServerState × List (String × ServerMsg)
  | Op.connect cid ip ua now => onWsConnection s cid ip ua now
  | Op.message cid parsed genId now => onRawMessage s cid parsed genId now
  | Op.disconnect cid => handleClientDisconnect s cid

/-- Process a sequence of operations, accumulating sent messages. -/
def runOps (s : ServerState) : List Op → ServerState × List (String × ServerMsg)
  | [] => (s, [])
  | op :: ops =>
      let (s', es) := stepOp s op
      let (s'', es') := runOps s' ops
      (s'', es ++ es')

/-- Number of rooms whose member set contains the client id. -/
def roomsContaining (s : ServerState) (clientId : String) : Nat :=
  (s.rooms.filter (fun p => clientId ∈ p.2.clients)).length

/-! ### Receiving-side session bookkeeping for the local-server path -/

/-- A session created by `handleLocalTransferStart`, which also records
the sender (`from`); the table itself is keyed by transfer id only. -/
structure LocalTransfer where
  fileName : String
  fileSize : Nat
  totalChunks : Nat
  chunks : List (Option String)
  receivedChunks : Nat
  fromId : String
  deriving Repr, DecidableEq

/-- Fields of a relayed `file-transfer-start` message. -/
structure LocalStartData where
  transferId : String
  fileName : String
  fileSize : Nat
  totalChunks : Nat
  fromId : String
  deriving Repr, DecidableEq

/-- The app's peer-connection list and its `activeTransfers` table. -/
structure LocalAppState where
  connections : List String
  activeTransfers : List (String × LocalTransfer)
  deriving Repr, DecidableEq

/-- Embeds `handleLocalTransferStart(data)`. -/
def handleLocalTransferStart (s : LocalAppState) (d : LocalStartData) :
    LocalAppState :=
  { s with
      activeTransfers := mset s.activeTransfers d.transferId
                           ⟨d.fileName, d.fileSize, d.totalChunks,
                             List.replicate d.totalChunks none, 0, d.fromId⟩ }

/-- The `conn.on('close')` handler: drop the connection from the list;
the transfer table is not touched. -/
def onConnClose (s : LocalAppState) (peer : String) : LocalAppState :=
  { s with connections := s.connections.filter (fun c => c ≠ peer) }


theorem mget_mset_self {α : Type} (l : List (String × α)) (k : String) (v : α) :
    mget (mset l k v) k = some v := by
  induction l with
  | nil => simp [mget, mset]
  | cons hd tl ih =>
    obtain ⟨k0, v0⟩ := hd
    by_cases h : k0 = k <;> simp [mset, mget, h, ih]

theorem mget_mset_ne {α : Type} (l : List (String × α)) (k k' : String) (v : α)
    (h : k' ≠ k) : mget (mset l k v) k' = mget l k' := by
  induction l with
  | nil => simp [mget, mset, Ne.symm h]
  | cons hd tl ih =>
    obtain ⟨k0, v0⟩ := hd
    by_cases hh : k0 = k
    · subst hh
      simp [mset, mget, Ne.symm h]
    · by_cases hk' : k0 = k' <;> simp [mset, mget, hh, hk', h, ih]

theorem mset_mset_self {α : Type} (l : List (String × α)) (k : String) (v w : α) :
    mset (mset l k v) k w = mset l k w := by
  induction l with
  | nil => simp [mset]
  | cons hd tl ih =>
    obtain ⟨k0, v0⟩ := hd
    by_cases h : k0 = k <;> simp [mset, h, ih]

theorem mget_mdel_self {α : Type} (l : List (String × α)) (k : String) :
    mget (mdel l k) k = none := by
  induction l with
  | nil => simp [mget, mdel]
  | cons hd tl ih =>
    obtain ⟨k0, v0⟩ := hd
    by_cases h : k0 = k <;> simp [mdel, mget, h, ih]

theorem setGrow_lt (l : List (Option String)) (i : Nat) (v : Option String)
    (h : i < l.length) : setGrow l i v = l.set i v := by
  simp [setGrow, h]

theorem length_setGrow_lt (l : List (Option String)) (i : Nat)
    (v : Option String) (h : i < l.length) :
    (setGrow l i v).length = l.length := by
  simp [setGrow_lt l i v h]

theorem get_set_self {α : Type} :
    ∀ (l : List α) (i : Nat) (a : α), i < l.length →
      (l.set i a).get? i = some a
  | [], i, a, h => by simp at h
  | x :: xs, 0, a, _ => rfl
  | x :: xs, i + 1, a, h => by
      simp only [List.set, List.get?]
      exact get_set_self xs i a (by simpa using h)

theorem get_set_ne {α : Type} :
    ∀ (l : List α) (i j : Nat) (a : α), i ≠ j →
      (l.set i a).get? j = l.get? j
  | [], _, _, _, _ => by simp
  | x :: xs, 0, 0, a, h => absurd rfl h
  | x :: xs, 0, j + 1, a, _ => rfl
  | x :: xs, i + 1, 0, a, _ => rfl
  | x :: xs, i + 1, j + 1, a, h => by
      simp only [List.set, List.get?]
      exact get_set_ne xs i j a (fun hh => h (by omega))

theorem length_applyChunks (ms : List ChunkData) (cs : List (Option String))
    (hlt : ∀ m ∈ ms, m.chunkIndex < cs.length) :
    (applyChunks cs ms).length = cs.length := by
  induction ms generalizing cs with
  | nil => rfl
  | cons m rest ih =>
    have hm : m.chunkIndex < cs.length := hlt m (by simp)
    have : applyChunks cs (m :: rest) =
        applyChunks (cs.set m.chunkIndex (some m.chunk)) rest := by
      simp [applyChunks, setGrow_lt cs m.chunkIndex (some m.chunk) hm]
    rw [this, ih _ (by

      intro m' hm'
      simpa using hlt m' (by simp [hm']))]
    simp

theorem get_applyChunks_not_mem (ms : List ChunkData)
    (cs : List (Option String)) (j : Nat)
    (hlt : ∀ m ∈ ms, m.chunkIndex < cs.length)
    (hj : ∀ m ∈ ms, m.chunkIndex ≠ j) :
    (applyChunks cs ms).get? j = cs.get? j := by
  induction ms generalizing cs with
  | nil => rfl
  | cons m rest ih =>
    have hm : m.chunkIndex < cs.length := hlt m (by simp)
    have hstep : applyChunks cs (m :: rest) =
        applyChunks (cs.set m.chunkIndex (some m.chunk)) rest := by
      simp [applyChunks, setGrow_lt cs m.chunkIndex (some m.chunk) hm]
    rw [hstep, ih _ (by
      intro m' hm'
      simpa using hlt m' (by simp [hm'])) (by
      intro m' hm'
      exact hj m' (by simp [hm']))]
    exact get_set_ne cs m.chunkIndex j (some m.chunk) (hj m (by simp))

theorem lt_of_get_some {α : Type} :
    ∀ (l : List α) (i : Nat) (v : α), l.get? i = some v → i < l.length
  | [], i, v, h => by simp at h
  | x :: xs, 0, v, _ => by simp
  | x :: xs, i + 1, v, h => by
      simp only [List.get?] at h
      have := lt_of_get_some xs i v h
      simpa using Nat.succ_lt_succ this

theorem get_applyChunks_mem (contents : List String) (ms : List ChunkData)
    (cs : List (Option String)) (j : Nat) (v : String)
    (hlen : cs.length = contents.length)
    (hval : ∀ m ∈ ms, contents.get? m.chunkIndex = some m.chunk)
    (hv : contents.get? j = some v)
    (hmem : ∃ m ∈ ms, m.chunkIndex = j) :
    (applyChunks cs ms).get? j = some (some v) := by
  induction ms generalizing cs with
  | nil => simp at hmem
  | cons m rest ih =>
    have hltm : m.chunkIndex < cs.length := by
      rw [hlen]
      exact lt_of_get_some contents _ _ (hval m (by simp))
    have hstep : applyChunks cs (m :: rest) =
        applyChunks (cs.set m.chunkIndex (some m.chunk)) rest := by
      simp [applyChunks, setGrow_lt cs m.chunkIndex (some m.chunk) hltm]
    have hlen' : (cs.set m.chunkIndex (some m.chunk)).length = contents.length := by
      simpa using hlen
    have hval' : ∀ m' ∈ rest, contents.get? m'.chunkIndex = some m'.chunk := by
      intro m' hm'
      exact hval m' (by simp [hm'])
    by_cases hr : ∃ m' ∈ rest, m'.chunkIndex = j
    · rw [hstep]
      exact ih _ hlen' hval' hr
    · obtain ⟨m0, hm0, hj0⟩ := hmem
      have hmj : m.chunkIndex = j := by
        rcases List.mem_cons.mp hm0 with h0 | h0
        · rw [← h0]; exact hj0
        · exact absurd ⟨m0, h0, hj0⟩ hr
      push_neg at hr
      rw [hstep, get_applyChunks_not_mem rest _ j ?hlt2 hr]
      · have hjlt : j < (cs.set m.chunkIndex (some m.chunk)).length := by
          rw [List.length_set, ← hmj]
          exact hltm
        rw [← hmj]
        rw [get_set_self cs m.chunkIndex (some m.chunk) hltm]
        have : m.chunk = v := by
          have h1 := hval m (by simp)
          rw [hmj, hv] at h1
          exact (Option.some.injEq v m.chunk ▸ h1).symm
        rw [this]
      · intro m' hm'
        rw [List.length_set, hlen]
        exact lt_of_get_some contents _ _ (hval' m' hm')

theorem mget_mdel_ne {α : Type} (l : List (String × α)) (k k' : String)
    (h : k' ≠ k) : mget (mdel l k) k' = mget l k' := by
  induction l with
  | nil => rfl
  | cons hd tl ih =>
    obtain ⟨k0, v0⟩ := hd
    by_cases hh : k0 = k
    · subst hh
      simp [mdel, mget, Ne.symm h, ih]
    · by_cases hk' : k0 = k' <;> simp [mdel, mget, hh, hk', h, ih]

theorem mset_get_self {α : Type} (l : List (String × α)) (k : String) (v : α)
    (h : mget l k = some v) : mset l k v = l := by
  induction l with
  | nil => simp [mget] at h
  | cons hd tl ih =>
    obtain ⟨k0, v0⟩ := hd
    by_cases hh : k0 = k
    · subst hh
      simp [mget] at h
      simp [mset, h]
    · simp [mget, hh] at h
      simp [mset, hh, ih h]

theorem list_eq_of_get {α : Type} :
    ∀ (l1 l2 : List α), l1.length = l2.length →
      (∀ j, l1.get? j = l2.get? j) → l1 = l2
  | [], [], _, _ => rfl
  | [], x :: xs, h, _ => by simp at h
  | x :: xs, [], h, _ => by simp at h
  | x :: xs, y :: ys, h, hg => by
      have h0 := hg 0
      simp only [List.get?] at h0
      have hxy : x = y := by injection h0
      have hrest := list_eq_of_get xs ys (by simpa using h) (fun j => hg (j + 1))
      simp [hxy, hrest]

/-- With every declared index hit at least once, index-ordered storage of a
set of chunk messages whose contents match `contents` fills every slot. -/
theorem applyChunks_full (contents : List String) (ms : List ChunkData)
    (hval : ∀ m ∈ ms, contents.get? m.chunkIndex = some m.chunk)
    (hcov : ∀ j, j < contents.length → ∃ m ∈ ms, m.chunkIndex = j) :
    applyChunks (List.replicate contents.length none) ms = contents.map some := by
  have hlt : ∀ m ∈ ms,
      m.chunkIndex < (List.replicate contents.length (none : Option String)).length := by
    intro m hm
    rw [List.length_replicate]
    exact lt_of_get_some contents _ _ (hval m hm)
  apply list_eq_of_get
  · rw [length_applyChunks ms _ hlt]
    simp
  · intro j
    by_cases hj : j < contents.length
    · obtain ⟨v, hv⟩ : ∃ v, contents.get? j = some v := by
        cases hvj : contents.get? j with
        | none => exact absurd (List.get?_eq_none.mp hvj) (by omega)
        | some v => exact ⟨v, rfl⟩
      rw [get_applyChunks_mem contents ms _ j v (by simp) hval hv (hcov j hj)]
      rw [List.get?_map, hv]
      rfl
    · rw [List.get?_eq_none.mpr, List.get?_eq_none.mpr]
      · simpa using Nat.le_of_not_lt hj
      · rw [length_applyChunks ms _ hlt]
        simpa using Nat.le_of_not_lt hj

theorem joinChunks_map_some (contents : List String) :
    joinChunks (contents.map some) = String.join contents := by
  simp only [joinChunks, List.map_map]
  rw [show ((fun o => Option.getD o "") ∘ (some : String → Option String)) =
      (fun a : String => a) from rfl]
  rw [List.map_id']

theorem applyChunks_concat (cs : List (Option String)) (ms : List ChunkData)
    (m : ChunkData) :
    applyChunks cs (ms ++ [m]) =
      setGrow (applyChunks cs ms) m.chunkIndex (some m.chunk) := by
  simp [applyChunks]

theorem downloadsOf_append (es es' : List Event) :
    downloadsOf (es ++ es') = downloadsOf es ++ downloadsOf es' := by
  simp [downloadsOf]

theorem run_append (s : AppState) (xs ys : List Msg) :
    run s (xs ++ ys) =
      ((run (run s xs).1 ys).1, (run s xs).2 ++ (run (run s xs).1 ys).2) := by
  induction xs generalizing s with
  | nil => simp [run]
  | cons x xs ih =>
    simp only [List.cons_append, run, List.append_eq]
    rw [ih]
    simp

/-- Running a flag-free batch of chunk messages for one session whose
received count stays strictly below the declared total performs every
store and count increment but never completes. -/
theorem runChunksBatch (tid : String) (ms : List ChunkData) (s : AppState)
    (tr : Transfer)
    (hget : mget s.activeTransfers tid = some tr)
    (htid : ∀ m ∈ ms, m.transferId = tid)
    (hflag : ∀ m ∈ ms, m.isLast = false)
    (hcount : tr.receivedChunks + ms.length < tr.totalChunks) :
    (run s (ms.map Msg.chunk)).1 =
      ⟨mset s.activeTransfers tid
        { tr with chunks := applyChunks tr.chunks ms,
                  receivedChunks := tr.receivedChunks + ms.length }⟩ ∧
    downloadsOf (run s (ms.map Msg.chunk)).2 = [] := by
  induction ms generalizing s tr with
  | nil =>
    have htr : ({ tr with chunks := applyChunks tr.chunks [],
                          receivedChunks := tr.receivedChunks + ([] : List ChunkData).length } : Transfer) = tr := by
      cases tr
      simp [applyChunks]
    rw [List.map_nil]
    constructor
    · show s = _
      rw [htr, mset_get_self _ _ _ hget]
    · rfl
  | cons m rest ih =>
    obtain ⟨fn0, fs0, tc0, cs0, rc0⟩ := tr
    simp only [List.length_cons] at hcount
    have hmtid : m.transferId = tid := htid m (by simp)
    have hne : rc0 + 1 ≠ tc0 := by omega
    have hbeq : ((rc0 + 1 : Nat) == tc0) = false := beq_eq_false_iff_ne.mpr hne
    have hstep : stepMsg s (Msg.chunk m) =
        (⟨mset s.activeTransfers tid
            ⟨fn0, fs0, tc0, setGrow cs0 m.chunkIndex (some m.chunk), rc0 + 1⟩⟩,
          [Event.progress tid (rc0 + 1) tc0]) := by
      simp only [stepMsg, handleFileChunk, hmtid, hget]
      rw [hflag m (by simp)]
      simp [hbeq]
    have ihx := ih
      ⟨mset s.activeTransfers tid
        ⟨fn0, fs0, tc0, setGrow cs0 m.chunkIndex (some m.chunk), rc0 + 1⟩⟩
      ⟨fn0, fs0, tc0, setGrow cs0 m.chunkIndex (some m.chunk), rc0 + 1⟩
      (mget_mset_self _ _ _)
      (fun m' hm' => htid m' (by simp [hm']))
      (fun m' hm' => hflag m' (by simp [hm']))
      (by
        show rc0 + 1 + rest.length < tc0
        omega)
    simp only [List.map_cons, run, hstep]
    constructor
    · rw [ihx.1]
      simp only [mset_mset_self]
      have h1 : applyChunks (setGrow cs0 m.chunkIndex (some m.chunk)) rest =
          applyChunks cs0 (m :: rest) := rfl
      have h2 : rc0 + 1 + rest.length = rc0 + (m :: rest).length := by
        simp
        omega
      rw [h1, h2]
    · rw [downloadsOf_append, ihx.2]
      rfl

theorem dcount_append (tid : String) (es es' : List Event) :
    dcount tid (es ++ es') = dcount tid es + dcount tid es' := by
  simp [dcount]

theorem scount_cons (tid : String) (m : Msg) (ms : List Msg) :
    scount tid (m :: ms) = scount tid [m] + scount tid ms := by
  cases m with
  | start d =>
    by_cases h : d.transferId = tid <;> simp [scount, List.filter_cons, h] <;> omega
  | chunk d => simp [scount, List.filter_cons]

/-- One dispatched message can only trade a session removal against a
completion, or a start against a session creation: per-step accounting for
the exactly-once completion argument. -/
theorem step_bound (s : AppState) (m : Msg) (tid : String) :
    dcount tid (stepMsg s m).2 + present tid (stepMsg s m).1 ≤
      scount tid [m] + present tid s := by
  cases m with
  | start d =>
    simp only [stepMsg, handleTransferStart]
    by_cases h : tid = d.transferId
    · subst h
      simp [dcount, present, scount, mget_mset_self]
    · rw [show present tid ⟨mset s.activeTransfers d.transferId _⟩ = present tid s from by
        simp [present, mget_mset_ne _ _ _ _ h]]
      simp [dcount]
  | chunk d =>
    simp only [stepMsg, handleFileChunk]
    cases hmt : mget s.activeTransfers d.transferId with
    | none =>
      simp [dcount, scount]
    | some t =>
      simp only
      split
      · simp only [completeFileTransfer, mget_mset_self]
        by_cases h : d.transferId = tid
        · subst h
          simp [dcount, scount, present, mget_mdel_self, hmt]
        · simp [dcount, scount, present, h, mget_mdel_ne _ _ _ (Ne.symm h),
            mget_mset_ne _ _ _ _ (Ne.symm h)]
      · by_cases h : d.transferId = tid
        · subst h
          simp [dcount, scount, present, mget_mset_self, hmt]
        · simp [dcount, scount, present, mget_mset_ne _ _ _ _ (Ne.symm h)]

theorem run_bound (ms : List Msg) (s : AppState) (tid : String) :
    dcount tid (run s ms).2 + present tid (run s ms).1 ≤
      scount tid ms + present tid s := by
  induction ms generalizing s with
  | nil => simp [run, dcount]
  | cons m ms ih =>
    simp only [run]
    rw [dcount_append, scount_cons]
    have h1 := step_bound s m tid
    have h2 := ih (stepMsg s m).1
    omega

theorem run_cons (s : AppState) (m : Msg) (ms : List Msg) :
    run s (m :: ms) =
      ((run (stepMsg s m).1 ms).1, (stepMsg s m).2 ++ (run (stepMsg s m).1 ms).2) := by
  simp [run]

theorem run_single (s : AppState) (m : Msg) :
    run s [m] = ((stepMsg s m).1, (stepMsg s m).2) := by
  simp [run]

/-- C1 (amended): for a session declared with `totalChunks = N` and any
permutation of N chunk messages carrying the distinct indices `0..N-1`
with their contents, in which only the message arriving last may carry
the last-chunk flag, the reconstruction at completion is the index-ordered
concatenation of the contents, and the session is then removed. -/
theorem claim_C1_reorder (contents : List String) (ms : List ChunkData)
    (tid fn : String) (fsz : Nat)
    (hne : contents ≠ [])
    (hperm : List.Perm (ms.map ChunkData.chunkIndex) (List.range contents.length))
    (hval : ∀ m ∈ ms, contents.get? m.chunkIndex = some m.chunk)
    (htid : ∀ m ∈ ms, m.transferId = tid)
    (hflag : ∀ m ∈ ms.dropLast, m.isLast = false) :
    downloadsOf (run ⟨[]⟩ (Msg.start ⟨tid, fn, fsz, contents.length⟩ ::
        ms.map Msg.chunk)).2 = [(tid, fn, String.join contents)] ∧
    mget (run ⟨[]⟩ (Msg.start ⟨tid, fn, fsz, contents.length⟩ ::
        ms.map Msg.chunk)).1.activeTransfers tid = none := by
  have hlen : ms.length = contents.length := by
    have h := hperm.length_eq
    simpa using h
  have hNpos : 0 < contents.length := List.length_pos.mpr hne
  rcases List.eq_nil_or_concat ms with hnil | ⟨init, mlast, hsplit⟩
  · exfalso
    rw [hnil] at hlen
    simp at hlen
    omega
  rw [List.concat_eq_append] at hsplit
  subst hsplit
  have hinitlen : init.length + 1 = contents.length := by simpa using hlen
  have hcov : ∀ j, j < contents.length → ∃ m ∈ init ++ [mlast], m.chunkIndex = j := by
    intro j hj
    have hjr : j ∈ List.range contents.length := List.mem_range.mpr hj
    have hjm : j ∈ (init ++ [mlast]).map ChunkData.chunkIndex := hperm.mem_iff.mpr hjr
    exact List.mem_map.mp hjm
  have hchunks : setGrow (applyChunks (List.replicate contents.length none) init)
      mlast.chunkIndex (some mlast.chunk) = contents.map some := by
    rw [← applyChunks_concat]
    exact applyChunks_full contents (init ++ [mlast]) hval hcov
  have hbatch := runChunksBatch tid init
    ⟨[(tid, ⟨fn, fsz, contents.length, List.replicate contents.length none, 0⟩)]⟩
    ⟨fn, fsz, contents.length, List.replicate contents.length none, 0⟩
    (by simp [mget])
    (fun m hm => htid m (by simp [hm]))
    (by
      intro m hm
      apply hflag
      rw [List.dropLast_concat]
      exact hm)
    (by
      show 0 + init.length < contents.length
      omega)
  have hmlasttid : mlast.transferId = tid := htid mlast (by simp)
  have hb : ((0 + init.length + 1 : Nat) == contents.length) = true := by
    rw [beq_iff_eq]
    omega
  have hlast : stepMsg (run ⟨[(tid,
      ⟨fn, fsz, contents.length, List.replicate contents.length none, 0⟩)]⟩
        (init.map Msg.chunk)).1 (Msg.chunk mlast) =
      (⟨mdel (mset (mset [(tid,
          ⟨fn, fsz, contents.length, List.replicate contents.length none, 0⟩)] tid
          ⟨fn, fsz, contents.length,
            applyChunks (List.replicate contents.length none) init,
            0 + init.length⟩) tid
          ⟨fn, fsz, contents.length, contents.map some, 0 + init.length + 1⟩) tid⟩,
        [Event.progress tid (0 + init.length + 1) contents.length,
         Event.download tid fn (joinChunks (contents.map some)),
         Event.hidden tid,
         Event.notified fn]) := by
    rw [hbatch.1]
    simp only [stepMsg, handleFileChunk, hmlasttid, mget_mset_self, hb,
      Bool.or_true, if_true, completeFileTransfer, hchunks, mget_mset_self]
  rw [run_cons]
  rw [show (init ++ [mlast]).map Msg.chunk = init.map Msg.chunk ++ [Msg.chunk mlast]
    from by simp]
  rw [run_append]
  rw [run_single]
  rw [show (stepMsg ⟨[]⟩ (Msg.start ⟨tid, fn, fsz, contents.length⟩)) =
      (⟨[(tid, ⟨fn, fsz, contents.length, List.replicate contents.length none, 0⟩)]⟩,
        [Event.shown tid]) from by
    simp [stepMsg, handleTransferStart, mset]]
  rw [hlast]
  constructor
  · rw [downloadsOf_append, downloadsOf_append, hbatch.2]
    rw [joinChunks_map_some]
    rfl
  · exact mget_mdel_self _ _

/-- C1 (counterexample): with the sender's last-chunk flag on index 1,
delivering index 1 first makes completion run with slot 0 still empty:
the download carries "B", not the index-ordered concatenation "AB". -/
theorem claim_C1_cex :
    downloadsOf (run ⟨[]⟩
      [Msg.start ⟨"t", "f", 2, 2⟩,
       Msg.chunk ⟨"t", 1, "B", true⟩,
       Msg.chunk ⟨"t", 0, "A", false⟩]).2 = [("t", "f", "B")] ∧
    ("B" : String) ≠ "A" ++ "B" := by
  constructor
  · rfl
  · decide

/-- C1 (witness): indices arriving in order 1, 0, 2 with the flag on the
final arrival reconstruct "abc". -/
theorem claim_C1_witness :
    downloadsOf (run ⟨[]⟩ (Msg.start ⟨"t", "f", 9, (["a", "b", "c"] : List String).length⟩ ::
        ([⟨"t", 1, "b", false⟩, ⟨"t", 0, "a", false⟩, ⟨"t", 2, "c", true⟩] :
          List ChunkData).map Msg.chunk)).2 =
      [("t", "f", String.join ["a", "b", "c"])] ∧
    mget (run ⟨[]⟩ (Msg.start ⟨"t", "f", 9, (["a", "b", "c"] : List String).length⟩ ::
        ([⟨"t", 1, "b", false⟩, ⟨"t", 0, "a", false⟩, ⟨"t", 2, "c", true⟩] :
          List ChunkData).map Msg.chunk)).1.activeTransfers "t" = none :=
  claim_C1_reorder ["a", "b", "c"]
    [⟨"t", 1, "b", false⟩, ⟨"t", 0, "a", false⟩, ⟨"t", 2, "c", true⟩]
    "t" "f" 9 (by decide) (by decide) (by decide) (by decide) (by decide)

/-- C2: in any message sequence containing a single transfer-start for a
transfer id, the completion side effects for that id run at most once,
even when both completion triggers occur. -/
theorem claim_C2_once (ms : List Msg) (tid : String)
    (hone : scount tid ms = 1) :
    dcount tid (run ⟨[]⟩ ms).2 ≤ 1 := by
  have h := run_bound ms ⟨[]⟩ tid
  have hp : present tid ⟨[]⟩ = 0 := by simp [present, mget]
  omega

/-- C2 (witness): both triggers fire on the second chunk and the repeated
flagged chunk afterwards runs no second completion. -/
theorem claim_C2_witness :
    scount "t" [Msg.start ⟨"t", "f", 2, 2⟩,
      Msg.chunk ⟨"t", 0, "A", false⟩,
      Msg.chunk ⟨"t", 1, "B", true⟩,
      Msg.chunk ⟨"t", 1, "B", true⟩] = 1 ∧
    dcount "t" (run ⟨[]⟩ [Msg.start ⟨"t", "f", 2, 2⟩,
      Msg.chunk ⟨"t", 0, "A", false⟩,
      Msg.chunk ⟨"t", 1, "B", true⟩,
      Msg.chunk ⟨"t", 1, "B", true⟩]).2 ≤ 1 :=
  ⟨by decide, claim_C2_once _ "t" (by decide)⟩

/-- C10: every chunk message for an active session increments the received
count (also when its index slot is already filled), and a sequence with a
repeated index reaches the declared total with a slot still empty, so the
reconstruction is the filled slots joined with empty strings for gaps. -/
theorem claim_C10_dup_count :
    (∀ (s : AppState) (d : ChunkData) (t : Transfer),
        mget s.activeTransfers d.transferId = some t →
        ∃ evs, (handleFileChunk s d).2 =
          Event.progress d.transferId (t.receivedChunks + 1) t.totalChunks :: evs) ∧
    downloadsOf (run ⟨[]⟩
      [Msg.start ⟨"t", "f", 2, 2⟩,
       Msg.chunk ⟨"t", 0, "A", false⟩,
       Msg.chunk ⟨"t", 0, "B", false⟩]).2 = [("t", "f", "B")] := by
  constructor
  · intro s d t h
    simp only [handleFileChunk, h]
    split
    · rcases hc : completeFileTransfer
          ⟨mset s.activeTransfers d.transferId
            { t with chunks := setGrow t.chunks d.chunkIndex (some d.chunk),
                     receivedChunks := t.receivedChunks + 1 }⟩ d.transferId with ⟨s2, e2⟩
      exact ⟨e2, rfl⟩
    · exact ⟨[], rfl⟩
  · rfl

/-- C10 (witness): a second chunk for an already-filled slot still raises
the received count to 2, and the duplicate-index run completes with the
gap rendered empty. -/
theorem claim_C10_witness :
    (∃ evs, (handleFileChunk ⟨[("t", ⟨"f", 2, 2, [some "A", none], 1⟩)]⟩
        ⟨"t", 0, "B", false⟩).2 = Event.progress "t" 2 2 :: evs) ∧
    downloadsOf (run ⟨[]⟩
      [Msg.start ⟨"t", "f", 2, 2⟩,
       Msg.chunk ⟨"t", 0, "A", false⟩,
       Msg.chunk ⟨"t", 0, "B", false⟩]).2 = [("t", "f", "B")] :=
  ⟨claim_C10_dup_count.1 ⟨[("t", ⟨"f", 2, 2, [some "A", none], 1⟩)]⟩
      ⟨"t", 0, "B", false⟩ ⟨"f", 2, 2, [some "A", none], 1⟩ rfl,
    claim_C10_dup_count.2⟩

theorem leaveRoom_clients (s : ServerState) (cid r : String) :
    (leaveRoom s cid r).1.clients = s.clients := by
  unfold leaveRoom
  cases hro : mget s.rooms r with
  | none => rfl
  | some room =>
      simp only
      split <;> rfl

theorem broadcast_snd (s : ServerState) (roomId : String) (msg : ServerMsg)
    (ex : Option String) :
    ∀ e ∈ broadcastToRoom s roomId msg ex, Prod.snd e = msg := by
  intro e he
  obtain ⟨a2, m2⟩ := e
  unfold broadcastToRoom at he
  cases hro : mget s.rooms roomId with
  | none => rw [hro] at he; simp at he
  | some room =>
      rw [hro] at he
      rw [List.mem_filterMap] at he
      obtain ⟨a, _, hfa⟩ := he
      by_cases hex : some a = ex
      · rw [if_pos hex] at hfa
        simp at hfa
      · rw [if_neg hex] at hfa
        cases hca : mget s.clients a with
        | none => simp only [hca] at hfa; simp at hfa
        | some ci =>
            simp only [hca] at hfa
            cases hw : ci.wsOpen with
            | false => simp only [hw] at hfa; simp at hfa
            | true =>
                simp only [hw] at hfa
                simp at hfa
                exact hfa.2.symm

theorem leaveRoom_events (s : ServerState) (cid r : String) :
    ∀ e ∈ (leaveRoom s cid r).2, ∃ x lst, Prod.snd e = ServerMsg.clientLeft x lst := by
  intro e he
  unfold leaveRoom at he
  cases hro : mget s.rooms r with
  | none => rw [hro] at he; simp at he
  | some room =>
      rw [hro] at he
      simp only at he
      cases hemp : (sDel room.clients cid).isEmpty with
      | true =>
          simp only [hemp] at he
          simp at he
      | false =>
          simp only [hemp] at he
          simp only [Bool.false_eq_true, if_false] at he
          refine ⟨cid, sDel room.clients cid, ?_⟩
          exact broadcast_snd _ r (ServerMsg.clientLeft cid (sDel room.clients cid))
            none e he

/-- C3: the claim fails — `handleCreateRoom` does not remove the creator
from its previous room, so after join-room "r1" then create-room (id
"r2"), client "c" is in the member sets of two rooms at once. -/
theorem claim_C3_two_rooms :
    roomsContaining (runOps ⟨[], []⟩
      [Op.connect "c" "ip" "ua" 0,
       Op.message "c" (some (ClientMsg.joinRoom "r1")) "g0" 1,
       Op.message "c" (some (ClientMsg.createRoom none)) "r2" 2]).1 "c" = 2 := by
  rfl

/-- C4: the claim fails — after join-room "r1", create-room "r2" and a
disconnect, room "r1" still exists holding the disconnected client as a
ghost member, although its last member has disconnected. -/
theorem claim_C4_ghost_room :
    mget (runOps ⟨[], []⟩
      [Op.connect "c" "ip" "ua" 0,
       Op.message "c" (some (ClientMsg.joinRoom "r1")) "g0" 1,
       Op.message "c" (some (ClientMsg.createRoom none)) "r2" 2,
       Op.disconnect "c"]).1.rooms "r1" = some ⟨none, ["c"], 1, none⟩ ∧
    mget (runOps ⟨[], []⟩
      [Op.connect "c" "ip" "ua" 0,
       Op.message "c" (some (ClientMsg.joinRoom "r1")) "g0" 1,
       Op.message "c" (some (ClientMsg.createRoom none)) "r2" 2,
       Op.disconnect "c"]).1.clients "c" = none :=
  ⟨rfl, rfl⟩

/-- C8: a payload that fails to parse yields exactly one error reply to
the sender, the state (hence the sender's registration) is unchanged, and
no other client receives anything. -/
theorem claim_C8_parse_error (s : ServerState) (cid genId : String) (now : Nat) :
    onRawMessage s cid none genId now =
      (s, [(cid, ServerMsg.errorMsg "Invalid JSON message")]) := rfl

/-- C9 (counterexample): a session whose sender is "peerA" survives the
connection-close handling for "peerA" untouched — no transfer session is
cancelled on disconnect, and the table is keyed by transfer id only. -/
theorem claim_C9_cex :
    mget (onConnClose (handleLocalTransferStart ⟨["peerA"], []⟩
        ⟨"t1", "f", 9, 2, "peerA"⟩) "peerA").activeTransfers "t1" =
      some ⟨"f", 9, 2, [none, none], 0, "peerA"⟩ ∧
    "peerA" ∉ (onConnClose (handleLocalTransferStart ⟨["peerA"], []⟩
        ⟨"t1", "f", 9, 2, "peerA"⟩) "peerA").connections :=
  ⟨rfl, by decide⟩

/-- C9 (amended): disconnect handling unregisters the client and performs
the room-leave cleanup (the client is no longer a member of its former
room), but transfer sessions are not cancelled: the connection-close
handler leaves the transfer table unchanged. -/
theorem claim_C9_no_cancel (s : ServerState) (cid : String)
    (app : LocalAppState) (peer : String) :
    mget (handleClientDisconnect s cid).1.clients cid = none ∧
    (∀ c r rm, mget s.clients cid = some c → c.room = some r → r ≠ "" →
      mget (handleClientDisconnect s cid).1.rooms r = some rm →
      cid ∉ rm.clients) ∧
    (onConnClose app peer).activeTransfers = app.activeTransfers := by
  refine ⟨mget_mdel_self _ _, ?_, rfl⟩
  intro c r rm hc hr hrne hrm
  have hjt : jsTruthy (some r) = true := by simp [jsTruthy, hrne]
  unfold handleClientDisconnect at hrm
  simp only [hc, hr, hjt, Option.getD_some, if_true] at hrm
  unfold leaveRoom at hrm
  cases hro : mget s.rooms r with
  | none => simp [hro] at hrm
  | some room =>
      simp only [hro] at hrm
      cases hemp : (sDel room.clients cid).isEmpty with
      | true =>
          simp [hemp, mget_mdel_self] at hrm
      | false =>
          simp only [hemp, Bool.false_eq_true, if_false] at hrm
          simp only [mget_mset_self, Option.some.injEq] at hrm
          rw [← hrm]
          simp [sDel, List.mem_filter]

/-- C9 (witness): disconnecting "c" from room "r" removes it from the
registry and from "r"'s member set, while the transfer table of the app
state is untouched. -/
theorem claim_C9_witness :
    mget (handleClientDisconnect
      ⟨[("c", ⟨some "r", true, "ip", "ua", 0⟩), ("d", ⟨some "r", true, "ip2", "ua", 0⟩)],
       [("r", ⟨none, ["c", "d"], 0, none⟩)]⟩ "c").1.clients "c" = none ∧
    "c" ∉ (⟨none, ["d"], 0, none⟩ : RoomInfo).clients ∧
    (onConnClose (⟨["p"], []⟩ : LocalAppState) "p").activeTransfers =
      (⟨["p"], []⟩ : LocalAppState).activeTransfers := by
  have h := claim_C9_no_cancel
    ⟨[("c", ⟨some "r", true, "ip", "ua", 0⟩), ("d", ⟨some "r", true, "ip2", "ua", 0⟩)],
     [("r", ⟨none, ["c", "d"], 0, none⟩)]⟩ "c" ⟨["p"], []⟩ "p"
  refine ⟨h.1, ?_, h.2.2⟩
  exact h.2.1 ⟨some "r", true, "ip", "ua", 0⟩ "r" ⟨none, ["d"], 0, none⟩ rfl rfl
    (by decide) rfl

theorem send_branch_eq_some (s : ServerState) (msg : ServerMsg)
    (ex : Option String) (a i : String) (m : ServerMsg) :
    ((if some a = ex then none
      else
        match mget s.clients a with
        | some c => if c.wsOpen then some (a, msg) else none
        | none => none) = some (i, m)) ↔
      (a = i ∧ m = msg ∧ some a ≠ ex ∧
        ∃ ci, mget s.clients a = some ci ∧ ci.wsOpen = true) := by
  by_cases hex : some a = ex
  · simp [hex]
  · rw [if_neg hex]
    cases hca : mget s.clients a with
    | none => simp [hex]
    | some ci =>
        cases hw : ci.wsOpen with
        | false => simp [hex, hw]
        | true =>
            simp only [hw, if_true, Option.some.injEq, Prod.mk.injEq, ne_eq,
              hex, not_false_iff, true_and]
            constructor
            · rintro ⟨h1, h2⟩
              exact ⟨h1, h2.symm, ⟨ci, rfl, hw⟩⟩
            · rintro ⟨h1, h2, _⟩
              exact ⟨h1, h2.symm⟩

/-- Characterization of `broadcastToRoom` delivery: a message reaches
exactly the non-excluded members of the room that are registered with an
open socket, and always carries the broadcast content. -/
theorem mem_broadcastToRoom (s : ServerState) (roomId : String)
    (msg : ServerMsg) (ex : Option String) (i : String) (m : ServerMsg) :
    ((i, m) ∈ broadcastToRoom s roomId msg ex) ↔
      (m = msg ∧ some i ≠ ex ∧
        ∃ room, mget s.rooms roomId = some room ∧ i ∈ room.clients ∧
          ∃ ci, mget s.clients i = some ci ∧ ci.wsOpen = true) := by
  unfold broadcastToRoom
  cases hro : mget s.rooms roomId with
  | none => simp
  | some room =>
      rw [List.mem_filterMap]
      constructor
      · rintro ⟨a, ha, hfa⟩
        rw [send_branch_eq_some] at hfa
        obtain ⟨rfl, rfl, hex, ci, hci, hw⟩ := hfa
        exact ⟨rfl, hex, room, rfl, ha, ci, hci, hw⟩
      · rintro ⟨rfl, hex, room', hr', hmem, ci, hci, hw⟩
        injection hr' with hr2
        refine ⟨i, ?_, ?_⟩
        · rw [hr2]; exact hmem
        · rw [send_branch_eq_some]
          exact ⟨rfl, rfl, hex, ci, hci, hw⟩

/-- C5 (counterexample): the relay spreads `...data` after `from:
clientId`, so a payload supplying its own `from` ("evil") overrides the
sender's server-assigned id ("c1") in the relayed message. -/
theorem claim_C5_cex :
    (handleWebRTCSignaling
      ⟨[("c1", ⟨some "r", true, "ip1", "ua", 0⟩),
        ("c2", ⟨some "r", true, "ip2", "ua", 0⟩)],
       [("r", ⟨none, ["c1", "c2"], 0, none⟩)]⟩
      "c1" ⟨SigKind.offer, some "evil", "p"⟩).2 =
      [("c2", ServerMsg.sigRelay SigKind.offer "evil" "p")] ∧
    ("evil" : String) ≠ "c1" :=
  ⟨rfl, by decide⟩

/-- C5 (amended): when the supplied payload carries no `from` field of its
own, signaling from a client in a room is relayed, state unchanged, to
exactly the other registered open-socket members of that room, with `from`
equal to the sender's id and the payload forwarded verbatim. -/
theorem claim_C5_relay (s : ServerState) (cid : String) (d : SigData)
    (c : ClientInfo) (r : String)
    (hc : mget s.clients cid = some c)
    (hr : c.room = some r) (hrne : r ≠ "")
    (hnf : d.fromField = none) :
    (handleWebRTCSignaling s cid d).1 = s ∧
    ∀ i m, ((i, m) ∈ (handleWebRTCSignaling s cid d).2 ↔
      (m = ServerMsg.sigRelay d.kind cid d.payload ∧ i ≠ cid ∧
        ∃ room, mget s.rooms r = some room ∧ i ∈ room.clients ∧
          ∃ ci, mget s.clients i = some ci ∧ ci.wsOpen = true)) := by
  have hjt : jsTruthy (some r) = true := by simp [jsTruthy, hrne]
  unfold handleWebRTCSignaling
  simp only [hc, hr, hjt, if_true, hnf, Option.getD_some, Option.getD_none]
  refine ⟨trivial, ?_⟩
  intro i m
  rw [mem_broadcastToRoom]
  simp only [ne_eq, Option.some.injEq]

/-- C5 (witness): a flag-free offer from "c1" reaches "c2" carrying
`from = "c1"`. -/
theorem claim_C5_witness :
    ("c2", ServerMsg.sigRelay SigKind.offer "c1" "p") ∈
      (handleWebRTCSignaling
        ⟨[("c1", ⟨some "r", true, "ip1", "ua", 0⟩),
          ("c2", ⟨some "r", true, "ip2", "ua", 0⟩)],
         [("r", ⟨none, ["c1", "c2"], 0, none⟩)]⟩
        "c1" ⟨SigKind.offer, none, "p"⟩).2 := by
  have h := claim_C5_relay
    ⟨[("c1", ⟨some "r", true, "ip1", "ua", 0⟩),
      ("c2", ⟨some "r", true, "ip2", "ua", 0⟩)],
     [("r", ⟨none, ["c1", "c2"], 0, none⟩)]⟩
    "c1" ⟨SigKind.offer, none, "p"⟩ ⟨some "r", true, "ip1", "ua", 0⟩ "r"
    rfl rfl (by decide) rfl
  exact (h.2 "c2" (ServerMsg.sigRelay SigKind.offer "c1" "p")).mpr
    ⟨rfl, by decide, ⟨⟨none, ["c1", "c2"], 0, none⟩, rfl, by decide,
      ⟨⟨some "r", true, "ip2", "ua", 0⟩, rfl, rfl⟩⟩⟩

/-- C6 (counterexample): a registered sender that is in no room gets its
targeted file-transfer message dropped even though the named target is
registered with an open socket — the handler returns before the targeted
branch. -/
theorem claim_C6_cex :
    (handleFileTransfer
      ⟨[("c1", ⟨none, true, "ip1", "ua", 0⟩),
        ("c2", ⟨none, true, "ip2", "ua", 0⟩)], []⟩
      "c1" ⟨FtKind.chunk, "t1", some "c2", "body"⟩).2 = [] ∧
    mget (⟨[("c1", ⟨none, true, "ip1", "ua", 0⟩),
        ("c2", ⟨none, true, "ip2", "ua", 0⟩)], []⟩ :
      ServerState).clients "c2" = some ⟨none, true, "ip2", "ua", 0⟩ :=
  ⟨rfl, rfl⟩

/-- C6 (amended): for a registered sender currently in a room, a
file-transfer message naming a registered open-socket target is delivered
to exactly that target with `from` = the sender's id; with no target named
it is broadcast to the other registered open-socket members of the
sender's room, with `from` attached. -/
theorem claim_C6_relay (s : ServerState) (cid : String) (d : FtData)
    (c : ClientInfo) (r : String)
    (hc : mget s.clients cid = some c)
    (hr : c.room = some r) (hrne : r ≠ "") :
    (∀ t tc, d.targetClient = some t → t ≠ "" →
      mget s.clients t = some tc → tc.wsOpen = true →
      (handleFileTransfer s cid d).2 =
        [(t, ServerMsg.ftRelay d.kind d.transferId d.targetClient d.body cid)]) ∧
    (d.targetClient = none →
      ∀ i m, ((i, m) ∈ (handleFileTransfer s cid d).2 ↔
        (m = ServerMsg.ftRelay d.kind d.transferId d.targetClient d.body cid ∧
          i ≠ cid ∧
          ∃ room, mget s.rooms r = some room ∧ i ∈ room.clients ∧
            ∃ ci, mget s.clients i = some ci ∧ ci.wsOpen = true))) := by
  have hjt : jsTruthy (some r) = true := by simp [jsTruthy, hrne]
  constructor
  · intro t tc ht htne htc hw
    have hjtt : jsTruthy (some t) = true := by simp [jsTruthy, htne]
    unfold handleFileTransfer
    simp only [hc, hr, hjt, if_true, ht, hjtt, Option.getD_some, htc, hw]
  · intro hnone i m
    have hjf : jsTruthy (none : Option String) = false := rfl
    unfold handleFileTransfer
    simp only [hc, hr, hjt, if_true, hnone, hjf, Bool.false_eq_true, if_false,
      Option.getD_some]
    rw [mem_broadcastToRoom]
    simp only [ne_eq, Option.some.injEq]

/-- C6 (witness): a chunk relayed from "c1" targeted at registered open
"c2" is delivered exactly to "c2" with `from = "c1"`. -/
theorem claim_C6_witness :
    (handleFileTransfer
      ⟨[("c1", ⟨some "r", true, "ip1", "ua", 0⟩),
        ("c2", ⟨some "r", true, "ip2", "ua", 0⟩)],
       [("r", ⟨none, ["c1", "c2"], 0, none⟩)]⟩
      "c1" ⟨FtKind.chunk, "t1", some "c2", "body"⟩).2 =
      [("c2", ServerMsg.ftRelay FtKind.chunk "t1" (some "c2") "body" "c1")] := by
  have h := claim_C6_relay
    ⟨[("c1", ⟨some "r", true, "ip1", "ua", 0⟩),
      ("c2", ⟨some "r", true, "ip2", "ua", 0⟩)],
     [("r", ⟨none, ["c1", "c2"], 0, none⟩)]⟩
    "c1" ⟨FtKind.chunk, "t1", some "c2", "body"⟩ ⟨some "r", true, "ip1", "ua", 0⟩
    "r" rfl rfl (by decide)
  exact h.1 "c2" ⟨some "r", true, "ip2", "ua", 0⟩ rfl (by decide) rfl rfl

theorem mem_sAdd_self (l : List String) (x : String) : x ∈ sAdd l x := by
  unfold sAdd
  by_cases h : x ∈ l
  · rw [if_pos h]; exact h
  · rw [if_neg h]; simp

/-- Canonical form of `handleJoinRoom` for a registered client: the
preliminary leave produces only client-left events and does not touch the
registry; the rest adds the member, updates the client's room and emits
the broadcast and the reply. -/
theorem handleJoinRoom_eq (s : ServerState) (cid roomId : String) (now : Nat)
    (c : ClientInfo) (hc : mget s.clients cid = some c) :
    ∃ (s1 : ServerState) (ev1 : List (String × ServerMsg)),
      s1.clients = s.clients ∧
      (∀ e ∈ ev1, ∃ x lst,
        Prod.snd (e : String × ServerMsg) = ServerMsg.clientLeft x lst) ∧
      handleJoinRoom s cid roomId now =
        ({ clients := mset s.clients cid { c with room := some roomId },
           rooms := mset s1.rooms roomId
             { (mget s1.rooms roomId).getD ⟨none, [], now, none⟩ with
                 clients := sAdd
                   ((mget s1.rooms roomId).getD ⟨none, [], now, none⟩).clients
                   cid } },
         ev1 ++
           broadcastToRoom
             { clients := mset s.clients cid { c with room := some roomId },
               rooms := mset s1.rooms roomId
                 { (mget s1.rooms roomId).getD ⟨none, [], now, none⟩ with
                     clients := sAdd
                       ((mget s1.rooms roomId).getD ⟨none, [], now, none⟩).clients
                       cid } }
             roomId
             (ServerMsg.clientJoined cid
               (sAdd
                 ((mget s1.rooms roomId).getD ⟨none, [], now, none⟩).clients
                 cid))
             (some cid) ++
           [(cid, ServerMsg.roomJoined roomId
             ((sAdd
                 ((mget s1.rooms roomId).getD ⟨none, [], now, none⟩).clients
                 cid).filter (fun i => i ≠ cid)))]) := by
  rcases hp1 : (if jsTruthy c.room then leaveRoom s cid (c.room.getD "")
      else (s, [])) with ⟨s1, ev1⟩
  have hs1c : s1.clients = s.clients := by
    by_cases hjt : jsTruthy c.room
    · rw [if_pos hjt] at hp1
      have h2 := leaveRoom_clients s cid (c.room.getD "")
      rw [hp1] at h2
      exact h2
    · rw [if_neg hjt] at hp1
      injection hp1 with h1 h2
      rw [← h1]
  have hev1 : ∀ e ∈ ev1, ∃ x lst,
      Prod.snd (e : String × ServerMsg) = ServerMsg.clientLeft x lst := by
    by_cases hjt : jsTruthy c.room
    · rw [if_pos hjt] at hp1
      intro e he
      apply leaveRoom_events s cid (c.room.getD "")
      rw [hp1]
      exact he
    · rw [if_neg hjt] at hp1
      injection hp1 with h1 h2
      rw [← h2]
      intro e he
      simp at he
  refine ⟨s1, ev1, hs1c, hev1, ?_⟩
  unfold handleJoinRoom
  rw [hc]
  simp only
  rw [hp1]
  cases hro : mget s1.rooms roomId with
  | some room0 =>
      simp only [hro, Option.isSome_some, if_true, Option.getD_some, hs1c]
  | none =>
      simp only [hro, Option.isSome_none, Bool.false_eq_true, if_false,
        mget_mset_self, mset_mset_self, Option.getD_some, Option.getD_none, hs1c]

/-- C7: after a registered client joins a room, the joined room's member
set contains it; the joiner gets a room-joined reply listing the updated
member set without itself (it never appears in its own snapshot); every
client-joined event emitted carries the joiner's id and the updated member
set and goes only to other clients; and every other updated member that is
registered with an open socket receives the client-joined event. -/
theorem claim_C7_join (s : ServerState) (cid roomId : String) (now : Nat)
    (c : ClientInfo) (hc : mget s.clients cid = some c) :
    ∃ rm, mget (handleJoinRoom s cid roomId now).1.rooms roomId = some rm ∧
      cid ∈ rm.clients ∧
      ((cid, ServerMsg.roomJoined roomId (rm.clients.filter (fun i => i ≠ cid)))
        ∈ (handleJoinRoom s cid roomId now).2) ∧
      cid ∉ rm.clients.filter (fun i => i ≠ cid) ∧
      (∀ i x lst,
        (i, ServerMsg.clientJoined x lst) ∈ (handleJoinRoom s cid roomId now).2 →
        x = cid ∧ lst = rm.clients ∧ i ≠ cid) ∧
      (∀ m mc, m ∈ rm.clients → m ≠ cid →
        mget (handleJoinRoom s cid roomId now).1.clients m = some mc →
        mc.wsOpen = true →
        (m, ServerMsg.clientJoined cid rm.clients) ∈
          (handleJoinRoom s cid roomId now).2) := by
  obtain ⟨s1, ev1, hs1c, hev1, hmain⟩ := handleJoinRoom_eq s cid roomId now c hc
  rw [hmain]
  refine ⟨{ (mget s1.rooms roomId).getD ⟨none, [], now, none⟩ with
      clients := sAdd
        ((mget s1.rooms roomId).getD ⟨none, [], now, none⟩).clients cid },
    ?_, ?_, ?_, ?_, ?_, ?_⟩
  · exact mget_mset_self _ _ _
  · exact mem_sAdd_self _ _
  · exact List.mem_append.mpr (Or.inr (List.mem_singleton.mpr rfl))
  · simp [List.mem_filter]
  · intro i x lst hmem
    rcases List.mem_append.mp hmem with h12 | h3
    · rcases List.mem_append.mp h12 with h1 | h2
      · obtain ⟨x', lst', heq⟩ := hev1 _ h1
        simp at heq
      · rw [mem_broadcastToRoom] at h2
        obtain ⟨hmsg, hex, _⟩ := h2
        injection hmsg with hx hlst
        refine ⟨hx, hlst, ?_⟩
        intro hicid
        exact hex (by rw [hicid])
    · simp at h3
  · intro m mc hm hne hmc hw
    apply List.mem_append.mpr
    left
    apply List.mem_append.mpr
    right
    rw [mem_broadcastToRoom]
    refine ⟨rfl, ?_, ?_⟩
    · simp [hne]
    · exact ⟨_, mget_mset_self _ _ _, hm, mc, hmc, hw⟩

/-- C7 (witness): "c1" joining room "r" already holding "c2": the joiner's
reply lists only "c2", the other member "c2" receives the client-joined
event with the updated member list, and the joiner is absent from its own
snapshot. -/
theorem claim_C7_witness :
    ("c1", ServerMsg.roomJoined "r" ["c2"]) ∈
      (handleJoinRoom
        ⟨[("c1", ⟨none, true, "ip", "ua", 0⟩),
          ("c2", ⟨some "r", true, "ip2", "ua", 0⟩)],
         [("r", ⟨none, ["c2"], 0, none⟩)]⟩ "c1" "r" 5).2 ∧
    ("c2", ServerMsg.clientJoined "c1" ["c2", "c1"]) ∈
      (handleJoinRoom
        ⟨[("c1", ⟨none, true, "ip", "ua", 0⟩),
          ("c2", ⟨some "r", true, "ip2", "ua", 0⟩)],
         [("r", ⟨none, ["c2"], 0, none⟩)]⟩ "c1" "r" 5).2 ∧
    "c1" ∉ (["c2", "c1"].filter (fun i => i ≠ "c1")) := by
  obtain ⟨rm, hrm, hmem, hreply, hnotself, hcj, hdel⟩ :=
    claim_C7_join
      ⟨[("c1", ⟨none, true, "ip", "ua", 0⟩),
        ("c2", ⟨some "r", true, "ip2", "ua", 0⟩)],
       [("r", ⟨none, ["c2"], 0, none⟩)]⟩ "c1" "r" 5
      ⟨none, true, "ip", "ua", 0⟩ rfl
  have h2 : mget (handleJoinRoom
      ⟨[("c1", ⟨none, true, "ip", "ua", 0⟩),
        ("c2", ⟨some "r", true, "ip2", "ua", 0⟩)],
       [("r", ⟨none, ["c2"], 0, none⟩)]⟩ "c1" "r" 5).1.rooms "r" =
      some (⟨none, ["c2", "c1"], 0, none⟩ : RoomInfo) := rfl
  rw [h2] at hrm
  injection hrm with h3
  have hrmval : rm = ⟨none, ["c2", "c1"], 0, none⟩ := h3.symm
  subst hrmval
  refine ⟨?_, ?_, ?_⟩
  · simpa using hreply
  · exact hdel "c2" ⟨some "r", true, "ip2", "ua", 0⟩ (by decide) (by decide) rfl rfl
  · decide
